import Mathlib

/-
A verification development for the flash-learn backend (src/server.js).

The POST /api/generate-cards handler is embedded shallowly:
  * JS strings are modelled as `List Char`;
  * the NDJSON line-framing loop (server.js lines 187-219) becomes the
    recursive function `drainBuffer` over an explicit `FrameState`;
  * the candidate-line body (lines 205-217) becomes `processCandidate`;
  * the final-buffer handling (lines 221-233) becomes `finalizeBuffer`;
  * `JSON.parse` is a JavaScript builtin, so the framing functions are
    parametric in a predicate `p : List Char → Bool` standing for
    "JSON.parse succeeds"; a concrete executable strict-JSON acceptor
    `jsonParses` is provided for concrete evaluations;
  * the handler's validation / provider-selection / cost phases
    (lines 59-93, 129-135, 239-260) become `runHandler` and `costPhase`
    over an explicit environment record.
-/

/-- The backquote character, U+0060, used by the markdown code fences that
the handler strips from model output. -/
def backquoteChar : Char := Char.ofNat 96

/-- Whitespace as recognised by JavaScript's String.prototype.trim
(the common members of the WhiteSpace / LineTerminator productions). -/
def isJsWs (c : Char) : Bool :=
  c = ' ' || c = '\t' || c = '\n' || c = '\r' || c = '\x0b' || c = '\x0c' ||
  c = '\u00A0' || c = '\u2028' || c = '\u2029' || c = '\uFEFF'

/-- JS `s.trim()`: drop JS whitespace from both ends. -/
def trimChars (l : List Char) : List Char :=
  ((l.dropWhile isJsWs).reverse.dropWhile isJsWs).reverse

/-- If `pat` is a prefix of `l`, return the remainder of `l` after it. -/
def dropLead? : List Char → List Char → Option (List Char)
  | [], l => some l
  | _ :: _, [] => none
  | a :: pa, c :: cs => if c = a then dropLead? pa cs else none

/-- The characters of the opening fence marker matched by the regex
in server.js line 208: three backquotes followed by the tag json. -/
def fenceOpen : List Char :=
  [backquoteChar, backquoteChar, backquoteChar, 'j', 's', 'o', 'n']

/-- The characters of the closing fence marker: three backquotes. -/
def fenceShut : List Char := [backquoteChar, backquoteChar, backquoteChar]

/-- JS `line.replace(/^` + three backquotes + `json\s*/, '')` (server.js line
208): if the line starts with the opening fence marker, remove it together
with the following whitespace run; otherwise leave the line unchanged. -/
def stripOpenFence (l : List Char) : List Char :=
  match dropLead? fenceOpen l with
  | some rest => rest.dropWhile isJsWs
  | none => l

/-- JS `line.replace(/\s*` + three backquotes + `$/, '')` (server.js line
208): if the line ends with the closing fence marker, remove it together
with the whitespace run just before it; otherwise leave the line unchanged. -/
def stripCloseFence (l : List Char) : List Char :=
  match dropLead? fenceShut l.reverse with
  | some rest => (rest.dropWhile isJsWs).reverse
  | none => l

/-- JS `s.startsWith('\x7b')` for the left-brace character. -/
def headIsLbrace : List Char → Bool
  | [] => false
  | c :: _ => c = '{'

/-- Per-request mutable state of the framing loop (server.js lines 187-189),
together with the observable effects: `emitted` records the strings passed
to `res.write`, `warnings` the texts passed to `logger.warn` by the
candidate-line / final-buffer handlers. -/
structure FrameState where
  buffer : List Char
  emitted : List (List Char)
  warnings : List (List Char)
  cardCount : Nat
  deriving DecidableEq, Repr

/-- The state at the top of the framing loop: empty buffer, nothing
written, no warnings, card counter zero. -/
def initState : FrameState :=
  { buffer := [], emitted := [], warnings := [], cardCount := 0 }

/-- The candidate-line body, server.js lines 205-217, applied to the raw
text `raw` extracted before a newline. The line is trimmed; if non-empty,
fence markers are stripped; if the cleaned line starts with a left brace it
is JSON-parsed: on success it is written out with a trailing newline and
the card counter is bumped, on failure a warning carrying the first 50
characters of the trimmed line is recorded. Lines not starting with a left
brace are discarded silently. `p` stands for JSON.parse succeeding. -/
def processCandidate (p : List Char → Bool) (st : FrameState)
    (raw : List Char) : FrameState :=
  let line := trimChars raw
  if line.isEmpty then st
  else
    let cleanedLine := stripCloseFence (stripOpenFence line)
    if headIsLbrace cleanedLine then
      if p cleanedLine then
        { st with emitted := st.emitted ++ [cleanedLine ++ ['\n']],
                  cardCount := st.cardCount + 1 }
      else
        { st with warnings := st.warnings ++ [line.take 50] }
    else st

/-- JS `buffer.indexOf('\n')` combined with the two slices of server.js
lines 202-203: split the buffer at its first newline, if any. -/
def splitNl : List Char → Option (List Char × List Char)
  | [] => none
  | c :: cs =>
    if c = '\n' then some ([], cs)
    else
      match splitNl cs with
      | none => none
      | some (pre, post) => some (c :: pre, post)

theorem splitNl_some {l pre post : List Char}
    (h : splitNl l = some (pre, post)) :
    l = pre ++ '\n' :: post ∧ '\n' ∉ pre := by
  induction l generalizing pre post with
  | nil => simp [splitNl] at h
  | cons c cs ih =>
    by_cases hc : c = '\n'
    · subst hc
      simp [splitNl] at h
      obtain ⟨h1, h2⟩ := h
      subst h1
      subst h2
      simp
    · simp only [splitNl, if_neg hc] at h
      cases h2 : splitNl cs with
      | none => rw [h2] at h; simp at h
      | some pr =>
          obtain ⟨pre2, post2⟩ := pr
          rw [h2] at h
          simp only [Option.some.injEq, Prod.mk.injEq] at h
          obtain ⟨h3, h4⟩ := h
          subst h3
          subst h4
          obtain ⟨hp, hq⟩ := ih h2
          subst hp
          refine ⟨by simp, ?_⟩
          simp only [List.mem_cons, not_or]
          exact ⟨fun he => hc he.symm, hq⟩

theorem splitNl_none {l : List Char} (h : splitNl l = none) : '\n' ∉ l := by
  induction l with
  | nil => simp
  | cons c cs ih =>
    by_cases hc : c = '\n'
    · subst hc; simp [splitNl] at h
    · simp only [splitNl, if_neg hc] at h
      cases h2 : splitNl cs with
      | none =>
          simp only [List.mem_cons, not_or]
          exact ⟨fun he => hc he.symm, ih h2⟩
      | some pr =>
          obtain ⟨pre2, post2⟩ := pr
          rw [h2] at h
          simp at h

theorem splitNl_of_nlFree {l : List Char} (h : '\n' ∉ l) : splitNl l = none := by
  match h2 : splitNl l with
  | none => rfl
  | some (pre, post) =>
      obtain ⟨heq, _⟩ := splitNl_some h2
      subst heq
      simp at h

/-- The inner while loop of server.js lines 201-218: while the buffer
contains a newline, cut off the text before the first newline, advance the
buffer past it, and run the candidate-line body on the cut text. -/
def drainBuffer (p : List Char → Bool) (st : FrameState) : FrameState :=
  match h : splitNl st.buffer with
  | none => st
  | some (pre, post) =>
      drainBuffer p { processCandidate p st pre with buffer := post }
termination_by st.buffer.length
decreasing_by
  obtain ⟨heq, _⟩ := splitNl_some h
  simp [processCandidate]
  rw [heq]
  simp
  omega

/-- One iteration of the for-await loop of server.js lines 191-219 for one
arriving fragment: append the fragment to the buffer, then drain. -/
def feedFragment (p : List Char → Bool) (st : FrameState)
    (frag : List Char) : FrameState :=
  drainBuffer p { st with buffer := st.buffer ++ frag }

/-- The whole for-await loop over a fragment sequence. -/
def runFragments (p : List Char → Bool) (frags : List (List Char)) :
    FrameState :=
  frags.foldl (feedFragment p) initState

/-- The leftover-buffer handling of server.js lines 221-233: if the buffer
is non-empty after trimming, clean it like a candidate line and emit it on
a successful parse; on a parse failure the warning carries the first 50
characters of the raw (untrimmed) buffer. -/
def finalizeBuffer (p : List Char → Bool) (st : FrameState) : FrameState :=
  if (trimChars st.buffer).isEmpty then st
  else
    let cleanedLine := stripCloseFence (stripOpenFence (trimChars st.buffer))
    if headIsLbrace cleanedLine then
      if p cleanedLine then
        { st with emitted := st.emitted ++ [cleanedLine ++ ['\n']],
                  cardCount := st.cardCount + 1 }
      else
        { st with warnings := st.warnings ++ [st.buffer.take 50] }
    else st

/-- Full framing pass over a fragment sequence: the for-await loop followed
by the leftover-buffer handling. -/
def processFragments (p : List Char → Bool) (frags : List (List Char)) :
    FrameState :=
  finalizeBuffer p (runFragments p frags)

/-- Full framing pass over a single total text delivered as one fragment. -/
def processText (p : List Char → Bool) (t : List Char) : FrameState :=
  finalizeBuffer p (drainBuffer p { initState with buffer := t })

/-- Cleaning pipeline applied to a raw candidate text: trim, then strip the
optional fence markers (the composition used at server.js lines 202+208). -/
def cleanOf (raw : List Char) : List Char :=
  stripCloseFence (stripOpenFence (trimChars raw))

/-- Acceptance test a raw candidate text must pass to be emitted: non-empty
after trimming, cleaned text starts with a left brace, and JSON.parse
(modelled by `p`) succeeds on the cleaned text. -/
def acceptsB (p : List Char → Bool) (raw : List Char) : Bool :=
  !(trimChars raw).isEmpty && headIsLbrace (cleanOf raw) && p (cleanOf raw)

/-- The candidate lines of a total text: the substrings between consecutive
newlines, plus the final remainder (which is empty when the text ends in a
newline). -/
def segsOf : List Char → List (List Char)
  | [] => [[]]
  | c :: cs =>
    if c = '\n' then [] :: segsOf cs
    else
      match segsOf cs with
      | [] => [[c]]
      | s :: ss => (c :: s) :: ss

/-- Concatenation of a fragment sequence into the total delivered text. -/
def joinFrags : List (List Char) → List Char
  | [] => []
  | f :: fs => f ++ joinFrags fs

/-- Modelled from the spec (section 8, first bullet): the lines the spec
says must be written — among the substrings between consecutive newlines
plus the final remainder, exactly those that pass the acceptance test,
each rendered as its cleaned text with one trailing newline appended. -/
def specEmittedLines (p : List Char → Bool) (total : List Char) :
    List (List Char) :=
  (segsOf total).filterMap
    (fun raw => if acceptsB p raw then some (cleanOf raw ++ ['\n']) else none)

theorem segsOf_ne_nil (l : List Char) : segsOf l ≠ [] := by
  cases l with
  | nil => simp [segsOf]
  | cons c cs =>
    rw [segsOf]
    by_cases hc : c = '\n'
    · simp [hc]
    · rw [if_neg hc]
      cases h2 : segsOf cs with
      | nil => simp
      | cons s ss => simp

theorem segsOf_nlFree {l : List Char} (h : '\n' ∉ l) : segsOf l = [l] := by
  induction l with
  | nil => rfl
  | cons c cs ih =>
    simp only [List.mem_cons, not_or] at h
    rw [segsOf, if_neg (fun he => h.1 he.symm), ih h.2]

theorem segsOf_split {pre post : List Char} (h : '\n' ∉ pre) :
    segsOf (pre ++ '\n' :: post) = pre :: segsOf post := by
  induction pre with
  | nil => simp [segsOf]
  | cons c cs ih =>
    simp only [List.mem_cons, not_or] at h
    rw [List.cons_append, segsOf, if_neg (fun he => h.1 he.symm),
      ih h.2]

theorem processCandidate_char (p : List Char → Bool) (st : FrameState)
    (raw : List Char) :
    (processCandidate p st raw).emitted
        = st.emitted
          ++ (if acceptsB p raw then [cleanOf raw ++ ['\n']] else [])
      ∧ (processCandidate p st raw).cardCount
        = st.cardCount + (if acceptsB p raw then 1 else 0)
      ∧ (processCandidate p st raw).buffer = st.buffer := by
  rw [processCandidate, acceptsB, cleanOf]
  by_cases h1 : (trimChars raw).isEmpty
  · simp [h1]
  · by_cases h2 : headIsLbrace (stripCloseFence (stripOpenFence (trimChars raw)))
    · by_cases h3 : p (stripCloseFence (stripOpenFence (trimChars raw)))
      · simp [h1, h2, h3]
      · simp [h1, h2, h3]
    · simp [h1, h2]

theorem finalizeBuffer_char (p : List Char → Bool) (st : FrameState) :
    (finalizeBuffer p st).emitted
        = st.emitted
          ++ (if acceptsB p st.buffer then [cleanOf st.buffer ++ ['\n']] else [])
      ∧ (finalizeBuffer p st).cardCount
        = st.cardCount + (if acceptsB p st.buffer then 1 else 0) := by
  rw [finalizeBuffer, acceptsB, cleanOf]
  by_cases h1 : (trimChars st.buffer).isEmpty
  · simp [h1]
  · by_cases h2 : headIsLbrace (stripCloseFence (stripOpenFence (trimChars st.buffer)))
    · by_cases h3 : p (stripCloseFence (stripOpenFence (trimChars st.buffer)))
      · simp [h1, h2, h3]
      · simp [h1, h2, h3]
    · simp [h1, h2]

theorem processCandidate_setBuffer (p : List Char → Bool) (st : FrameState)
    (b raw : List Char) :
    processCandidate p { st with buffer := b } raw
      = { processCandidate p st raw with buffer := b } := by
  rw [processCandidate, processCandidate]
  by_cases h1 : (trimChars raw).isEmpty
  · simp [h1]
  · by_cases h2 : headIsLbrace (stripCloseFence (stripOpenFence (trimChars raw)))
    · by_cases h3 : p (stripCloseFence (stripOpenFence (trimChars raw)))
      · simp [h1, h2, h3]
      · simp [h1, h2, h3]
    · simp [h1, h2]

theorem drainBuffer_none {p : List Char → Bool} {st : FrameState}
    (h : splitNl st.buffer = none) : drainBuffer p st = st := by
  rw [drainBuffer.eq_def, h]

theorem drainBuffer_step {p : List Char → Bool} {st : FrameState}
    {pre post : List Char} (h : splitNl st.buffer = some (pre, post)) :
    drainBuffer p st
      = drainBuffer p { processCandidate p st pre with buffer := post } := by
  rw [drainBuffer.eq_def, h]

theorem specEmittedLines_nlFree {t : List Char} (p : List Char → Bool)
    (h : '\n' ∉ t) :
    specEmittedLines p t
      = if acceptsB p t then [cleanOf t ++ ['\n']] else [] := by
  rw [specEmittedLines, segsOf_nlFree h]
  by_cases ha : acceptsB p t
  · simp [ha]
  · simp [ha]

theorem specEmittedLines_split {pre post : List Char} (p : List Char → Bool)
    (h : '\n' ∉ pre) :
    specEmittedLines p (pre ++ '\n' :: post)
      = (if acceptsB p pre then [cleanOf pre ++ ['\n']] else [])
        ++ specEmittedLines p post := by
  rw [specEmittedLines, segsOf_split h, List.filterMap_cons, specEmittedLines]
  by_cases ha : acceptsB p pre
  · simp [ha]
  · simp [ha]

theorem drainFinal_char (p : List Char → Bool) :
    ∀ (n : Nat) (st : FrameState), st.buffer.length ≤ n →
    (finalizeBuffer p (drainBuffer p st)).emitted
        = st.emitted ++ specEmittedLines p st.buffer
      ∧ (finalizeBuffer p (drainBuffer p st)).cardCount
        = st.cardCount + (specEmittedLines p st.buffer).length := by
  intro n
  induction n with
  | zero =>
    intro st hlen
    have hb : st.buffer = [] := List.length_eq_zero.mp (Nat.le_zero.mp hlen)
    have hnone : splitNl st.buffer = none := by rw [hb]; rfl
    rw [drainBuffer_none hnone]
    have hfree : '\n' ∉ st.buffer := by rw [hb]; simp
    rw [specEmittedLines_nlFree p hfree]
    obtain ⟨he, hc⟩ := finalizeBuffer_char p st
    by_cases ha : acceptsB p st.buffer
    · rw [ha] at he hc ⊢
      simp at he hc ⊢
      exact ⟨he, hc⟩
    · simp only [Bool.not_eq_true] at ha
      rw [ha] at he hc ⊢
      simp at he hc ⊢
      exact ⟨he, hc⟩
  | succ n ih =>
    intro st hlen
    cases h : splitNl st.buffer with
    | none =>
      rw [drainBuffer_none h]
      have hfree : '\n' ∉ st.buffer := splitNl_none h
      rw [specEmittedLines_nlFree p hfree]
      obtain ⟨he, hc⟩ := finalizeBuffer_char p st
      by_cases ha : acceptsB p st.buffer
      · rw [ha] at he hc ⊢
        simp at he hc ⊢
        exact ⟨he, hc⟩
      · simp only [Bool.not_eq_true] at ha
        rw [ha] at he hc ⊢
        simp at he hc ⊢
        exact ⟨he, hc⟩
    | some pr =>
      obtain ⟨pre, post⟩ := pr
      obtain ⟨heq, hfree⟩ := splitNl_some h
      rw [drainBuffer_step h]
      obtain ⟨pe, pc, pb⟩ := processCandidate_char p st pre
      have hlen2 : ({ processCandidate p st pre with buffer := post } :
          FrameState).buffer.length ≤ n := by
        simp only []
        have : st.buffer.length = pre.length + 1 + post.length := by
          rw [heq]; simp; omega
        omega
      obtain ⟨ge, gc⟩ := ih _ hlen2
      simp only [] at ge gc
      rw [heq, specEmittedLines_split p hfree]
      constructor
      · rw [ge, pe, List.append_assoc]
      · rw [gc, pc, List.length_append]
        by_cases ha : acceptsB p pre
        · simp only [ha, if_true, List.length_cons, List.length_nil]
          omega
        · simp only [ha, Bool.false_eq_true, if_false, List.length_nil]
          omega

theorem splitNl_append_nlFree {pre rest : List Char} (h : '\n' ∉ pre) :
    splitNl (pre ++ '\n' :: rest) = some (pre, rest) := by
  induction pre with
  | nil => simp [splitNl]
  | cons c cs ih =>
    simp only [List.mem_cons, not_or] at h
    rw [List.cons_append, splitNl, if_neg (fun he => h.1 he.symm),
      ih h.2]

theorem feedFragment_drained (p : List Char → Bool) :
    ∀ (n : Nat) (st : FrameState), st.buffer.length ≤ n → ∀ (f : List Char),
    feedFragment p (drainBuffer p st) f
      = drainBuffer p { st with buffer := st.buffer ++ f } := by
  intro n
  induction n with
  | zero =>
    intro st hlen f
    have hb : st.buffer = [] := List.length_eq_zero.mp (Nat.le_zero.mp hlen)
    have hnone : splitNl st.buffer = none := by rw [hb]; rfl
    rw [drainBuffer_none hnone, feedFragment]
  | succ n ih =>
    intro st hlen f
    cases h : splitNl st.buffer with
    | none =>
      rw [drainBuffer_none h, feedFragment]
    | some pr =>
      obtain ⟨pre, post⟩ := pr
      obtain ⟨heq, hfree⟩ := splitNl_some h
      rw [drainBuffer_step h]
      have hlen2 : ({ processCandidate p st pre with buffer := post } :
          FrameState).buffer.length ≤ n := by
        simp only []
        have : st.buffer.length = pre.length + 1 + post.length := by
          rw [heq]; simp; omega
        omega
      rw [ih _ hlen2 f]
      have hsplit2 : splitNl (st.buffer ++ f) = some (pre, post ++ f) := by
        rw [heq, List.append_assoc, List.cons_append]
        exact splitNl_append_nlFree hfree
      have hstep2 := @drainBuffer_step p
        { st with buffer := st.buffer ++ f } pre (post ++ f) hsplit2
      rw [hstep2, processCandidate_setBuffer p st (st.buffer ++ f) pre]

theorem runFragments_join (p : List Char → Bool) :
    ∀ (frags : List (List Char)) (st : FrameState),
    List.foldl (feedFragment p) (drainBuffer p st) frags
      = drainBuffer p { st with buffer := st.buffer ++ joinFrags frags } := by
  intro frags
  induction frags with
  | nil =>
    intro st
    simp [joinFrags]
  | cons f fs ih =>
    intro st
    rw [List.foldl_cons, feedFragment_drained p st.buffer.length st le_rfl f,
      ih { st with buffer := st.buffer ++ f }]
    simp [joinFrags]

theorem runFragments_eq_drain_join (p : List Char → Bool)
    (frags : List (List Char)) :
    runFragments p frags
      = drainBuffer p { initState with buffer := joinFrags frags } := by
  have hinit : drainBuffer p initState = initState :=
    drainBuffer_none (by rfl)
  rw [runFragments, ← hinit, runFragments_join]
  rw [hinit]
  rfl

/-- Whitespace insignificant to the JSON grammar (RFC 8259), as skipped by
JSON.parse between tokens. -/
def isJsonWs (c : Char) : Bool :=
  c = ' ' || c = '\t' || c = '\n' || c = '\r'

/-- Skip insignificant JSON whitespace. -/
def skipJsonWs (l : List Char) : List Char := l.dropWhile isJsonWs

/-- ASCII hexadecimal digit. -/
def isHexDigit (c : Char) : Bool :=
  c.isDigit || ('a' ≤ c && c ≤ 'f') || ('A' ≤ c && c ≤ 'F')

/-- Remainder of a JSON string after its opening quote: consume characters
and escape sequences until the closing quote; fail on control characters,
bad escapes, or a missing closing quote. -/
def jsonStrRest : Nat → List Char → Option (List Char)
  | 0, _ => none
  | _ + 1, [] => none
  | fu + 1, c :: cs =>
    if c = '"' then some cs
    else if c = '\\' then
      match cs with
      | [] => none
      | e :: cs2 =>
        if e = 'u' then
          match cs2 with
          | h1 :: h2 :: h3 :: h4 :: cs3 =>
            if isHexDigit h1 && isHexDigit h2 && isHexDigit h3 &&
                isHexDigit h4 then
              jsonStrRest fu cs3
            else none
          | _ => none
        else if e = '"' || e = '\\' || e = '/' || e = 'b' || e = 'f' ||
            e = 'n' || e = 'r' || e = 't' then
          jsonStrRest fu cs2
        else none
    else if c.toNat < 32 then none
    else jsonStrRest fu cs

/-- One or more decimal digits, returning the remainder. -/
def jsonDigits : List Char → Option (List Char)
  | [] => none
  | c :: cs => if c.isDigit then some (cs.dropWhile Char.isDigit) else none

/-- Optional JSON fraction part. -/
def jsonFrac : List Char → Option (List Char)
  | c :: cs => if c = '.' then jsonDigits cs else some (c :: cs)
  | [] => some []

/-- Optional JSON exponent part. -/
def jsonExpPart : List Char → Option (List Char)
  | c :: cs =>
    if c = 'e' || c = 'E' then
      match cs with
      | s :: cs2 =>
        if s = '+' || s = '-' then jsonDigits cs2 else jsonDigits (s :: cs2)
      | [] => none
    else some (c :: cs)
  | [] => some []

/-- JSON number after an optional leading minus sign: integer part with no
leading zeros, then optional fraction and exponent. -/
def jsonNumCore (l : List Char) : Option (List Char) :=
  match l with
  | [] => none
  | c :: cs =>
    if c = '0' then
      match jsonFrac cs with
      | none => none
      | some r => jsonExpPart r
    else if c.isDigit then
      match jsonFrac (cs.dropWhile Char.isDigit) with
      | none => none
      | some r => jsonExpPart r
    else none

/-- JSON number, with an optional leading minus sign. -/
def jsonNum : List Char → Option (List Char)
  | c :: cs => if c = '-' then jsonNumCore cs else jsonNumCore (c :: cs)
  | [] => none

/-- JSON literal names true, false and null. -/
def jsonLit : List Char → Option (List Char)
  | 't' :: 'r' :: 'u' :: 'e' :: cs => some cs
  | 'f' :: 'a' :: 'l' :: 's' :: 'e' :: cs => some cs
  | 'n' :: 'u' :: 'l' :: 'l' :: cs => some cs
  | _ => none

mutual

/-- JSON value: skip leading whitespace, then an object, array, string,
number or literal. The fuel argument bounds nesting depth. -/
def jsonVal : Nat → List Char → Option (List Char)
  | 0, _ => none
  | fu + 1, l =>
    match skipJsonWs l with
    | [] => none
    | c :: cs =>
      if c = '{' then jsonObjBody fu cs
      else if c = '[' then jsonArrBody fu cs
      else if c = '"' then jsonStrRest (cs.length + 1) cs
      else if c = '-' || c.isDigit then jsonNum (c :: cs)
      else jsonLit (c :: cs)

/-- Remainder of a JSON object after its opening brace: either an
immediately closing brace or a member list. -/
def jsonObjBody : Nat → List Char → Option (List Char)
  | 0, _ => none
  | fu + 1, l =>
    match skipJsonWs l with
    | c :: cs => if c = '}' then some cs else jsonMembers fu l
    | [] => none

/-- Members of a JSON object: string key, colon, value, then a comma and
further members or the closing brace. -/
def jsonMembers : Nat → List Char → Option (List Char)
  | 0, _ => none
  | fu + 1, l =>
    match skipJsonWs l with
    | c :: cs =>
      if c = '"' then
        match jsonStrRest (cs.length + 1) cs with
        | none => none
        | some r1 =>
          match skipJsonWs r1 with
          | d :: r2 =>
            if d = ':' then
              match jsonVal fu r2 with
              | none => none
              | some r3 =>
                match skipJsonWs r3 with
                | e :: r4 =>
                  if e = ',' then jsonMembers fu r4
                  else if e = '}' then some r4
                  else none
                | [] => none
            else none
          | [] => none
      else none
    | [] => none

/-- Remainder of a JSON array after its opening bracket: either an
immediately closing bracket or an element list. -/
def jsonArrBody : Nat → List Char → Option (List Char)
  | 0, _ => none
  | fu + 1, l =>
    match skipJsonWs l with
    | c :: cs => if c = ']' then some cs else jsonElems fu l
    | [] => none

/-- Elements of a JSON array: a value, then a comma and further elements
or the closing bracket. -/
def jsonElems : Nat → List Char → Option (List Char)
  | 0, _ => none
  | fu + 1, l =>
    match jsonVal fu l with
    | none => none
    | some r1 =>
      match skipJsonWs r1 with
      | e :: r2 =>
        if e = ',' then jsonElems fu r2
        else if e = ']' then some r2
        else none
      | [] => none

end

/-- Strict JSON acceptance as performed by JSON.parse: the whole text is
one JSON value followed only by insignificant whitespace. -/
def jsonParses (l : List Char) : Bool :=
  match jsonVal (2 * l.length + 8) l with
  | some rest => (skipJsonWs rest).isEmpty
  | none => false

example : jsonParses
    ['{', '"', 'a', '"', ':', '1', '}'] = true := by decide

example : jsonParses ('n' :: 'o' :: 't' :: ' ' :: 'j' :: 's' :: []) = false := by
  decide

example : jsonParses ['{', 'o', 'o', 'p', 's', '}'] = false := by decide

/-- The request body fields read by the handler (server.js line 62): the
topic string when present, and the optional context list. -/
structure GenRequest where
  topic : Option (List Char)
  context : Option (List (List Char))

/-- One upstream stream chunk as seen by the provider adapters: optional
usage metadata (the pair of prompt-side and completion-side token counts
read at server.js lines 122-123 / 175-176), and the text payload (Gemini's
chunk.text(), or OpenAI's delta content with absence modelled as the empty
list). -/
structure Chunk where
  usage : Option (Nat × Nat)
  text : List Char

/-- The usage summary, server.js line 85: starts at zero and is assigned
from each chunk carrying metadata. -/
structure UsageSummary where
  inputTokens : Nat
  outputTokens : Nat
  deriving DecidableEq, Repr

/-- The assignment performed inside both adapter loops (server.js lines
121-124 and 174-177): a chunk carrying usage metadata overwrites both
fields; any other chunk leaves the summary unchanged. -/
def updateUsage (u : UsageSummary) (c : Chunk) : UsageSummary :=
  match c.usage with
  | some m => { inputTokens := m.1, outputTokens := m.2 }
  | none => u

/-- The usage summary after the whole stream: the initial zero summary
threaded through every chunk. -/
def finalUsage (chunks : List Chunk) : UsageSummary :=
  chunks.foldl updateUsage { inputTokens := 0, outputTokens := 0 }

/-- Modelled from the claim's words: the last usage metadata observed in
the stream, if any chunk carried metadata. -/
def lastMeta : List Chunk → Option (Nat × Nat)
  | [] => none
  | c :: cs =>
    match lastMeta cs with
    | some m => some m
    | none => c.usage

/-- Environment-variable configuration read by the handler. Key and
provider variables are the raw strings (absent = none); the four
cost-per-million variables are modelled as their parsed numeric values
when set and non-empty, since parseFloat is a JS builtin. -/
structure Env where
  aiProvider : Option (List Char)
  geminiKey : Option (List Char)
  openaiKey : Option (List Char)
  geminiInputRate : Option ℚ
  geminiOutputRate : Option ℚ
  openaiInputRate : Option ℚ
  openaiOutputRate : Option ℚ

/-- JS falsiness of a string-valued environment variable or request field:
absent or the empty string. -/
def falsyStr : Option (List Char) → Bool
  | none => true
  | some s => s.isEmpty

/-- The provider identifier gemini. -/
def geminiName : List Char := ['g', 'e', 'm', 'i', 'n', 'i']

/-- The provider identifier openai. -/
def openaiName : List Char := ['o', 'p', 'e', 'n', 'a', 'i']

/-- JS `process.env.AI_PROVIDER || 'openai'` (server.js line 76). -/
def selectedProvider (env : Env) : List Char :=
  match env.aiProvider with
  | none => openaiName
  | some s => if s.isEmpty then openaiName else s

/-- Outcome of the cost block, server.js lines 239-260: either the three
computed cost figures logged at lines 255-257, or the warning of line 259
when no usage metadata was ever collected. -/
inductive CostLog where
  | estimated (inputCost outputCost totalCost : ℚ)
  | usageMissing
  deriving DecidableEq, Repr

/-- The cost block, server.js lines 239-260: when any tokens were counted,
pick the active provider's per-million rates (with the defaults of lines
244-248) and compute input, output and total cost; otherwise warn. -/
def costPhase (env : Env) (provider : List Char) (u : UsageSummary) :
    CostLog :=
  if u.inputTokens > 0 || u.outputTokens > 0 then
    let rates : ℚ × ℚ :=
      if provider = geminiName then
        (env.geminiInputRate.getD (1 / 10), env.geminiOutputRate.getD (2 / 5))
      else
        (env.openaiInputRate.getD (5 / 2), env.openaiOutputRate.getD 10)
    let inputCost := ((u.inputTokens : ℚ) / 1000000) * rates.1
    let outputCost := ((u.outputTokens : ℚ) / 1000000) * rates.2
    CostLog.estimated inputCost outputCost (inputCost + outputCost)
  else CostLog.usageMissing

/-- Modelled from the spec (section 3, CostEstimate): input cost, output
cost and their sum, from the token counts and the two rates. -/
def specCostEstimate (inRate outRate : ℚ) (u : UsageSummary) : ℚ × ℚ × ℚ :=
  let ic := (u.inputTokens : ℚ) / 1000000 * inRate
  let oc := (u.outputTokens : ℚ) / 1000000 * outRate
  (ic, oc, ic + oc)

/-- The input-side per-million rate of the active provider, with the
configured defaults. -/
def activeInRate (env : Env) (provider : List Char) : ℚ :=
  if provider = geminiName then env.geminiInputRate.getD (1 / 10)
  else env.openaiInputRate.getD (5 / 2)

/-- The output-side per-million rate of the active provider, with the
configured defaults. -/
def activeOutRate (env : Env) (provider : List Char) : ℚ :=
  if provider = geminiName then env.geminiOutputRate.getD (2 / 5)
  else env.openaiOutputRate.getD 10

/-- What the handler sends to the caller: an error status with a JSON
error body, or the chunked streamed body (the list of strings written). -/
inductive HandlerResponse where
  | errorJson (status : Nat) (message : List Char)
  | streamBody (written : List (List Char))
  deriving DecidableEq, Repr

/-- Observable outcome of one request: whether the upstream streaming call
was opened, what was sent to the caller, and the cost block's outcome
(none when the cost block was never reached). -/
structure HandlerTrace where
  upstreamCalled : Bool
  response : HandlerResponse
  costLog : Option CostLog
  deriving DecidableEq, Repr

/-- The error body text of server.js line 68. -/
def topicRequiredMsg : List Char := "Topic is required".data

/-- The error body text of server.js line 265. -/
def failedMsg : List Char := "Failed to generate flashcards".data

/-- The streaming part shared by both providers: run the framing loop over
the adapted fragment sequence, then the final-buffer handling, then the
cost block over the final usage summary. -/
def streamPhase (p : List Char → Bool) (env : Env) (provider : List Char)
    (frags : List (List Char)) (chunks : List Chunk) : HandlerTrace :=
  let st := finalizeBuffer p (runFragments p frags)
  { upstreamCalled := true,
    response := HandlerResponse.streamBody st.emitted,
    costLog := some (costPhase env provider (finalUsage chunks)) }

/-- The POST /api/generate-cards handler (server.js lines 59-269) as a
function of the environment, the request body and the chunk sequence the
upstream call would deliver. Topic validation (lines 66-69) returns 400
before anything else; a missing credential for the selected provider
(lines 89-93 / 132-135) throws, which the top-level catch converts to a
500 JSON response since no byte of the body has been written; otherwise
the upstream call is opened and the stream is framed and costed. Gemini
yields every chunk's text; OpenAI yields only non-empty delta content
(lines 178-179). -/
def runHandler (p : List Char → Bool) (env : Env) (req : GenRequest)
    (chunks : List Chunk) : HandlerTrace :=
  if falsyStr req.topic then
    { upstreamCalled := false,
      response := HandlerResponse.errorJson 400 topicRequiredMsg,
      costLog := none }
  else
    let provider := selectedProvider env
    if provider = geminiName then
      if falsyStr env.geminiKey then
        { upstreamCalled := false,
          response := HandlerResponse.errorJson 500 failedMsg,
          costLog := none }
      else
        streamPhase p env provider (chunks.map Chunk.text) chunks
    else
      if falsyStr env.openaiKey then
        { upstreamCalled := false,
          response := HandlerResponse.errorJson 500 failedMsg,
          costLog := none }
      else
        streamPhase p env provider
          (chunks.filterMap
            (fun c => if c.text.isEmpty then none else some c.text))
          chunks

/-- C1: For every fragment sequence, the list of lines written to the
response equals exactly the candidate lines of the total text (substrings
between consecutive newlines plus the final remainder) that, after
trimming and fence-stripping, start with a left brace and parse as strict
JSON (the parse modelled by the arbitrary predicate `p`), each emitted as
the cleaned text with one trailing newline appended, and no other line is
emitted. List equality also gives the set equality the claim states. -/
theorem claim_C1_framing_exact (p : List Char → Bool)
    (frags : List (List Char)) :
    (processFragments p frags).emitted
      = specEmittedLines p (joinFrags frags) := by
  rw [processFragments, runFragments_eq_drain_join]
  have h := (drainFinal_char p (joinFrags frags).length
    { initState with buffer := joinFrags frags } (by simp)).1
  simpa [initState] using h

/-- C2: For every total input text and any two partitions of it into
fragment sequences, the framing pass produces identical results — the full
final states coincide, so in particular the emitted output is identical
and in identical order. Framing is fragmentation-agnostic. -/
theorem claim_C2_fragmentation_agnostic (p : List Char → Bool)
    (frags1 frags2 : List (List Char))
    (h : joinFrags frags1 = joinFrags frags2) :
    processFragments p frags1 = processFragments p frags2 := by
  rw [processFragments, processFragments, runFragments_eq_drain_join,
    runFragments_eq_drain_join, h]

/-- Witness for C2 at a concrete split: one JSON object delivered as two
fragments cut mid-object versus as a single fragment. -/
theorem claim_C2_witness :
    processFragments jsonParses
        [['{', '"', 'a', '"'], [':', '1', '}', '\n']]
      = processFragments jsonParses
        [['{', '"', 'a', '"', ':', '1', '}', '\n']] :=
  claim_C2_fragmentation_agnostic jsonParses _ _ (by decide)

/-- C4: The final-buffer handling computes the same emission, the same
card-count change, equally many warnings as the in-loop candidate-line
processing applied to the same text (same trimming, fence-stripping,
startsWith check and parse), and leaves the buffer untouched — it performs
no further newline search. (The warning text differs: the final handler
logs the untrimmed buffer's first 50 characters.) -/
theorem claim_C4_final_buffer_equiv (p : List Char → Bool)
    (st : FrameState) :
    (finalizeBuffer p st).emitted
        = (processCandidate p st st.buffer).emitted
      ∧ (finalizeBuffer p st).cardCount
        = (processCandidate p st st.buffer).cardCount
      ∧ (finalizeBuffer p st).warnings.length
        = (processCandidate p st st.buffer).warnings.length
      ∧ (finalizeBuffer p st).buffer = st.buffer := by
  rw [finalizeBuffer, processCandidate]
  by_cases h1 : (trimChars st.buffer).isEmpty
  · simp [h1]
  · by_cases h2 : headIsLbrace (stripCloseFence (stripOpenFence
      (trimChars st.buffer)))
    · by_cases h3 : p (stripCloseFence (stripOpenFence
        (trimChars st.buffer)))
      · simp [h1, h2, h3]
      · simp [h1, h2, h3]
    · simp [h1, h2]

/-- The text of the candidate line not json, which is non-empty after
trimming and whose cleaned form does not start with a left brace. -/
def notJsonLine : List Char := "not json".data

/-- Counterexample to C3 as stated: processing the non-empty candidate
line not json leaves the state entirely unchanged — the line is discarded
but NO warning is recorded, because the candidate-line body only reaches
logger.warn through the JSON.parse exception, and lines whose cleaned text
does not start with a left brace are never parsed (server.js lines
209-216). -/
theorem claim_C3_counterexample :
    (trimChars notJsonLine).isEmpty = false
      ∧ headIsLbrace (cleanOf notJsonLine) = false
      ∧ processCandidate jsonParses initState notJsonLine = initState
      ∧ (processCandidate jsonParses initState notJsonLine).warnings = [] := by
  refine ⟨by decide, by decide, by decide, by decide⟩

/-- C3 (amended): For every candidate line that is non-empty after
trimming: if the cleaned line does not start with a left brace it is
discarded silently, with no warning recorded; if the cleaned line starts
with a left brace and JSON parsing fails, it is discarded and a warning is
recorded containing at most the first 50 characters of the trimmed line. -/
theorem claim_C3_warning_policy (p : List Char → Bool) (st : FrameState)
    (raw : List Char) (h1 : (trimChars raw).isEmpty = false) :
    (headIsLbrace (cleanOf raw) = false → processCandidate p st raw = st)
      ∧ (headIsLbrace (cleanOf raw) = true → p (cleanOf raw) = false →
          processCandidate p st raw
            = { st with warnings := st.warnings ++ [(trimChars raw).take 50] }
          ∧ ((trimChars raw).take 50).length ≤ 50) := by
  constructor
  · intro h2
    rw [processCandidate]
    rw [cleanOf] at h2
    simp [h1, h2]
  · intro h2 h3
    rw [cleanOf] at h2 h3
    constructor
    · rw [processCandidate]
      simp [h1, h2, h3]
    · exact List.length_take_le 50 (trimChars raw)

/-- Witness for C3 (amended) at the concrete failing line consisting of a
left brace followed by oops: the cleaned text starts with a brace, strict
JSON parsing fails, and exactly the 50-character-capped warning is
appended. -/
theorem claim_C3_witness :
    processCandidate jsonParses initState ['{', 'o', 'o', 'p', 's']
      = { initState with
          warnings := [(trimChars ['{', 'o', 'o', 'p', 's']).take 50] } :=
  ((claim_C3_warning_policy jsonParses initState ['{', 'o', 'o', 'p', 's']
    (by decide)).2 (by decide) (by decide)).1

/-- C5: For every input text consisting of a valid JSON line, then a
malformed candidate line, then another valid JSON line (each newline
terminated), exactly the two valid lines are emitted — processing
continues past the malformed line without aborting the stream. The
emitted list is the entire response body, so the per-line warning (kept
in the separate warnings log) is never part of what the caller receives
and never turns the request into a failure. -/
theorem claim_C5_malformed_line_skipped (p : List Char → Bool)
    (v1 m v2 : List Char)
    (hv1 : acceptsB p v1 = true) (hv2 : acceptsB p v2 = true)
    (hm1 : acceptsB p m = false)
    (nl1 : '\n' ∉ v1) (nlm : '\n' ∉ m) (nl2 : '\n' ∉ v2) :
    (processText p (v1 ++ '\n' :: (m ++ '\n' :: (v2 ++ ['\n'])))).emitted
        = [cleanOf v1 ++ ['\n'], cleanOf v2 ++ ['\n']]
      ∧ (processText p (v1 ++ '\n' :: (m ++ '\n' :: (v2 ++ ['\n'])))).cardCount
        = 2 := by
  have h := drainFinal_char p
    (v1 ++ '\n' :: (m ++ '\n' :: (v2 ++ ['\n']))).length
    { initState with buffer := v1 ++ '\n' :: (m ++ '\n' :: (v2 ++ ['\n'])) }
    (by simp)
  rw [processText]
  have hspec : specEmittedLines p (v1 ++ '\n' :: (m ++ '\n' :: (v2 ++ ['\n'])))
      = [cleanOf v1 ++ ['\n'], cleanOf v2 ++ ['\n']] := by
    rw [specEmittedLines_split p nl1, specEmittedLines_split p nlm,
      specEmittedLines_split p nl2]
    have haccept : acceptsB p [] = false := by simp [acceptsB, trimChars]
    have hempty : specEmittedLines p [] = [] := by
      rw [specEmittedLines]
      have hsegs : segsOf [] = [[]] := rfl
      rw [hsegs]
      simp [haccept]
    rw [hempty, hv1, hv2, hm1]
    simp
  obtain ⟨he, hc⟩ := h
  simp only [initState] at he hc
  rw [hspec] at he hc
  constructor
  · simpa using he
  · simpa using hc

/-- Witness for C5: the object with key a between the malformed line not
json and the object with key b, each line newline-terminated; exactly the
two objects come out and the card counter ends at two. -/
theorem claim_C5_witness :
    (processText jsonParses
        (['{', '"', 'a', '"', ':', '1', '}'] ++ '\n' ::
          (notJsonLine ++ '\n' ::
            (['{', '"', 'b', '"', ':', '2', '}'] ++ ['\n'])))).emitted
        = [cleanOf ['{', '"', 'a', '"', ':', '1', '}'] ++ ['\n'],
           cleanOf ['{', '"', 'b', '"', ':', '2', '}'] ++ ['\n']]
      ∧ (processText jsonParses
        (['{', '"', 'a', '"', ':', '1', '}'] ++ '\n' ::
          (notJsonLine ++ '\n' ::
            (['{', '"', 'b', '"', ':', '2', '}'] ++ ['\n'])))).cardCount
        = 2 :=
  claim_C5_malformed_line_skipped jsonParses _ _ _ (by decide) (by decide)
    (by decide) (by decide) (by decide) (by decide)

/-- C6: For every request whose body lacks a topic (a JS-falsy topic
field), the handler responds with status 400 and the JSON error body Topic
is required, the response is not a stream, and the upstream provider call
is never attempted. -/
theorem claim_C6_topic_required (p : List Char → Bool) (env : Env)
    (req : GenRequest) (chunks : List Chunk)
    (h : falsyStr req.topic = true) :
    runHandler p env req chunks
      = { upstreamCalled := false,
          response := HandlerResponse.errorJson 400 topicRequiredMsg,
          costLog := none } := by
  rw [runHandler, if_pos h]

/-- Witness for C6: a request with no topic field at all. -/
theorem claim_C6_witness :
    runHandler jsonParses
        { aiProvider := none, geminiKey := none, openaiKey := none,
          geminiInputRate := none, geminiOutputRate := none,
          openaiInputRate := none, openaiOutputRate := none }
        { topic := none, context := none } []
      = { upstreamCalled := false,
          response := HandlerResponse.errorJson 400 topicRequiredMsg,
          costLog := none } :=
  claim_C6_topic_required jsonParses _ _ _ (by decide)

/-- C7: For every request with a topic, if the credential for the selected
provider is absent (GEMINI_API_KEY when gemini is selected, OPENAI_API_KEY
otherwise), the handler fails before the upstream streaming call is opened
— `upstreamCalled` stays false, so no tokens are ever spent — and the
failure reaches the caller as a 500 JSON error response (the top-level
catch of server.js lines 262-268, with no headers yet sent). -/
theorem claim_C7_credential_precheck (p : List Char → Bool) (env : Env)
    (req : GenRequest) (chunks : List Chunk)
    (htopic : falsyStr req.topic = false)
    (hkey : (selectedProvider env = geminiName
              ∧ falsyStr env.geminiKey = true)
          ∨ (selectedProvider env ≠ geminiName
              ∧ falsyStr env.openaiKey = true)) :
    runHandler p env req chunks
      = { upstreamCalled := false,
          response := HandlerResponse.errorJson 500 failedMsg,
          costLog := none } := by
  rcases hkey with ⟨hp, hk⟩ | ⟨hp, hk⟩
  · simp [runHandler, htopic, hp, hk]
  · simp [runHandler, htopic, hp, hk]

/-- Witness for C7: topic present, provider defaulting to openai, and no
OPENAI_API_KEY configured. -/
theorem claim_C7_witness :
    runHandler jsonParses
        { aiProvider := none, geminiKey := none, openaiKey := none,
          geminiInputRate := none, geminiOutputRate := none,
          openaiInputRate := none, openaiOutputRate := none }
        { topic := some ['x'], context := none } []
      = { upstreamCalled := false,
          response := HandlerResponse.errorJson 500 failedMsg,
          costLog := none } :=
  claim_C7_credential_precheck jsonParses _ _ _ (by decide)
    (Or.inr ⟨by decide, by decide⟩)

/-- C8: The cost block computes exactly inputCost = inputTokens/1e6 ×
inputRate, outputCost = outputTokens/1e6 × outputRate and totalCost =
inputCost + outputCost with the active provider's rates whenever either
token count is positive, and is skipped with the usage-missing warning
exactly when both token counts are zero (rationals model the JS number
arithmetic, which is exact on these operations for the realistic range). -/
theorem claim_C8_cost_formula (env : Env) (provider : List Char)
    (u : UsageSummary) :
    costPhase env provider u
      = if u.inputTokens = 0 ∧ u.outputTokens = 0 then CostLog.usageMissing
        else
          CostLog.estimated
            (specCostEstimate (activeInRate env provider)
              (activeOutRate env provider) u).1
            (specCostEstimate (activeInRate env provider)
              (activeOutRate env provider) u).2.1
            (specCostEstimate (activeInRate env provider)
              (activeOutRate env provider) u).2.2 := by
  rw [costPhase, specCostEstimate, activeInRate, activeOutRate]
  by_cases h : u.inputTokens = 0 ∧ u.outputTokens = 0
  · rw [if_pos h]
    simp [h.1, h.2]
  · rw [if_neg h]
    have hpos : 0 < u.inputTokens ∨ 0 < u.outputTokens := by
      rcases Nat.eq_zero_or_pos u.inputTokens with h1 | h1
      · rcases Nat.eq_zero_or_pos u.outputTokens with h2 | h2
        · exact absurd ⟨h1, h2⟩ h
        · exact Or.inr h2
      · exact Or.inl h1
    have hcond : (u.inputTokens > 0 || u.outputTokens > 0) = true := by
      rcases hpos with h1 | h1 <;> simp [h1]
    rw [if_pos hcond]
    by_cases hg : provider = geminiName
    · simp [hg]
    · simp [hg]

/-- C10: The usage summary starts at zero/zero and every chunk carrying
usage metadata overwrites both fields (assignment, not accumulation), so
the final summary equals the last metadata observed in the stream, or
stays zero/zero when no chunk carried metadata. -/
theorem claim_C10_usage_last_write (chunks : List Chunk) :
    finalUsage chunks
      = match lastMeta chunks with
        | some m => { inputTokens := m.1, outputTokens := m.2 }
        | none => { inputTokens := 0, outputTokens := 0 } := by
  rw [finalUsage]
  have hgen : ∀ (cs : List Chunk) (u : UsageSummary),
      cs.foldl updateUsage u
        = match lastMeta cs with
          | some m => { inputTokens := m.1, outputTokens := m.2 }
          | none => u := by
    intro cs
    induction cs with
    | nil => intro u; rfl
    | cons c cs2 ih =>
      intro u
      rw [List.foldl_cons, ih (updateUsage u c), lastMeta]
      cases h2 : lastMeta cs2 with
      | some m => simp [h2]
      | none =>
        cases h3 : c.usage with
        | some m => simp [h2, h3, updateUsage]
        | none => simp [h2, h3, updateUsage]
  exact hgen chunks { inputTokens := 0, outputTokens := 0 }

theorem dropWhile_head_false {c : Char} {cs : List Char}
    (h : List.dropWhile isJsWs (c :: cs) = c :: cs) : isJsWs c = false := by
  have h2 := (List.dropWhile_eq_self_iff.mp h) (by simp)
  simpa using h2

theorem dropWhile_eq_self_append {a : List Char} (b : List Char)
    (hne : a ≠ []) (h : List.dropWhile isJsWs a = a) :
    List.dropWhile isJsWs (a ++ b) = a ++ b := by
  cases a with
  | nil => exact absurd rfl hne
  | cons c cs =>
    have hc := dropWhile_head_false h
    rw [List.cons_append, List.dropWhile_cons, if_neg (by simp [hc])]

theorem dropWhile_ws_append {w : List Char} (l : List Char)
    (hw : ∀ c ∈ w, isJsWs c = true) :
    List.dropWhile isJsWs (w ++ l) = List.dropWhile isJsWs l := by
  induction w with
  | nil => rfl
  | cons c cs ih =>
    rw [List.cons_append, List.dropWhile_cons, if_pos (hw c (by simp))]
    exact ih (fun d hd => hw d (by simp [hd]))

theorem dropLead_self (pat rest : List Char) :
    dropLead? pat (pat ++ rest) = some rest := by
  induction pat with
  | nil => rfl
  | cons a pa ih => simp [dropLead?, ih]

theorem dropLead_mismatch {a c : Char} (pa cs : List Char) (h : c ≠ a) :
    dropLead? (a :: pa) (c :: cs) = none := by
  simp [dropLead?, h]

theorem trimChars_of {l : List Char} (h1 : List.dropWhile isJsWs l = l)
    (h2 : List.dropWhile isJsWs l.reverse = l.reverse) : trimChars l = l := by
  rw [trimChars, h1, h2, List.reverse_reverse]

/-- C9: For every candidate line consisting of a fenced code block — an
opening fence tagged json (followed by whitespace) and/or a closing fence
(preceded by whitespace) around a JSON object text that starts with a left
brace, carries no edge whitespace, contains no backquote and parses — the
fence markers are stripped and the inner object is emitted exactly once
(one new entry in the written list, card counter up by one), with no fence
character appearing in the emitted line. -/
theorem claim_C9_fenced_block (p : List Char → Bool) (st : FrameState)
    (hasOpen hasClose : Bool) (w1 w2 inner : List Char)
    (hw1 : ∀ c ∈ w1, isJsWs c = true) (hw2 : ∀ c ∈ w2, isJsWs c = true)
    (hhead : headIsLbrace inner = true)
    (htrim : trimChars inner = inner)
    (hnb : backquoteChar ∉ inner)
    (hp : p inner = true)
    (hfenced : (hasOpen || hasClose) = true) :
    processCandidate p st
        (cond hasOpen (fenceOpen ++ w1) []
          ++ inner ++ cond hasClose (w2 ++ fenceShut) [])
      = { st with emitted := st.emitted ++ [inner ++ ['\n']],
                  cardCount := st.cardCount + 1 }
    ∧ backquoteChar ∉ inner ++ ['\n'] := by
  refine ⟨?_, ?_⟩
  case refine_2 =>
    intro hmem
    rcases List.mem_append.mp hmem with hin | hin
    · exact hnb hin
    · simp at hin
      exact absurd hin (by decide)
  case refine_1 =>
    cases inner with
    | nil => simp [headIsLbrace] at hhead
    | cons ic itail =>
    have hic : ic = '{' := by simpa [headIsLbrace] using hhead
    subst hic
    have hdw : List.dropWhile isJsWs ('{' :: itail) = '{' :: itail := by
      rw [List.dropWhile_cons, if_neg (by decide)]
    have hrev0 : List.dropWhile isJsWs ('{' :: itail).reverse
        = ('{' :: itail).reverse := by
      rw [trimChars, hdw] at htrim
      have h2 := congrArg List.reverse htrim
      rw [List.reverse_reverse] at h2
      exact h2
    have hrne : ('{' :: itail).reverse ≠ [] := by simp
    obtain ⟨z, zs, hr⟩ : ∃ z zs, ('{' :: itail).reverse = z :: zs := by
      cases hh : ('{' :: itail).reverse with
      | nil => exact absurd hh hrne
      | cons z zs => exact ⟨z, zs, rfl⟩
    have hzmem : z ∈ ('{' :: itail) := by
      rw [← List.mem_reverse, hr]
      simp
    have hzne : z ≠ backquoteChar := fun he => hnb (he ▸ hzmem)
    have hw2r : ∀ c ∈ w2.reverse, isJsWs c = true :=
      fun c hc => hw2 c (List.mem_reverse.mp hc)
    have hshutr : fenceShut.reverse = fenceShut := rfl
    have hcloseNone : stripCloseFence ('{' :: itail) = '{' :: itail := by
      rw [stripCloseFence, hr,
        show fenceShut = backquoteChar :: [backquoteChar, backquoteChar]
          from rfl,
        dropLead_mismatch _ _ hzne]
    cases hasOpen with
    | false =>
      cases hasClose with
      | false => simp at hfenced
      | true =>
        simp only [Bool.cond_true, Bool.cond_false, List.nil_append]
        have hs1 : List.dropWhile isJsWs
            (('{' :: itail) ++ (w2 ++ fenceShut))
            = ('{' :: itail) ++ (w2 ++ fenceShut) :=
          dropWhile_eq_self_append _ (by simp) hdw
        have hrevEq : (('{' :: itail) ++ (w2 ++ fenceShut)).reverse
            = fenceShut ++ (w2.reverse ++ ('{' :: itail).reverse) := by
          rw [List.reverse_append, List.reverse_append, hshutr,
            List.append_assoc]
        have hs2 : List.dropWhile isJsWs
            (('{' :: itail) ++ (w2 ++ fenceShut)).reverse
            = (('{' :: itail) ++ (w2 ++ fenceShut)).reverse := by
          rw [hrevEq]
          exact dropWhile_eq_self_append _ (by decide) (by decide)
        have htrimR : trimChars (('{' :: itail) ++ (w2 ++ fenceShut))
            = ('{' :: itail) ++ (w2 ++ fenceShut) := trimChars_of hs1 hs2
        have hopenR : stripOpenFence (('{' :: itail) ++ (w2 ++ fenceShut))
            = ('{' :: itail) ++ (w2 ++ fenceShut) := by
          rw [stripOpenFence, List.cons_append,
            show fenceOpen = backquoteChar ::
              [backquoteChar, backquoteChar, 'j', 's', 'o', 'n'] from rfl,
            dropLead_mismatch _ _ (by decide)]
        have hcloseR : stripCloseFence (('{' :: itail) ++ (w2 ++ fenceShut))
            = '{' :: itail := by
          rw [stripCloseFence, hrevEq, dropLead_self]
          show (List.dropWhile isJsWs
            (w2.reverse ++ ('{' :: itail).reverse)).reverse = '{' :: itail
          rw [dropWhile_ws_append _ hw2r, hrev0, List.reverse_reverse]
        rw [processCandidate]
        simp only [htrimR, hopenR, hcloseR]
        have hne : (('{' :: itail) ++ (w2 ++ fenceShut)).isEmpty = false := by
          simp
        simp [hne, headIsLbrace, hp]
    | true =>
      cases hasClose with
      | false =>
        simp only [Bool.cond_true, Bool.cond_false, List.append_nil]
        have hs1 : List.dropWhile isJsWs
            ((fenceOpen ++ w1) ++ ('{' :: itail))
            = (fenceOpen ++ w1) ++ ('{' :: itail) := by
          rw [List.append_assoc]
          exact dropWhile_eq_self_append _ (by decide) (by decide)
        have hrevEq : ((fenceOpen ++ w1) ++ ('{' :: itail)).reverse
            = ('{' :: itail).reverse ++ (w1.reverse ++ fenceOpen.reverse) := by
          rw [List.reverse_append, List.reverse_append]
        have hs2 : List.dropWhile isJsWs
            ((fenceOpen ++ w1) ++ ('{' :: itail)).reverse
            = ((fenceOpen ++ w1) ++ ('{' :: itail)).reverse := by
          rw [hrevEq]
          exact dropWhile_eq_self_append _ hrne hrev0
        have htrimR : trimChars ((fenceOpen ++ w1) ++ ('{' :: itail))
            = (fenceOpen ++ w1) ++ ('{' :: itail) := trimChars_of hs1 hs2
        have hopenR : stripOpenFence ((fenceOpen ++ w1) ++ ('{' :: itail))
            = '{' :: itail := by
          rw [stripOpenFence, List.append_assoc, dropLead_self]
          show List.dropWhile isJsWs (w1 ++ '{' :: itail) = '{' :: itail
          rw [dropWhile_ws_append _ hw1, hdw]
        rw [processCandidate]
        simp only [htrimR, hopenR, hcloseNone]
        have hne : ((fenceOpen ++ w1) ++ ('{' :: itail)).isEmpty = false := by
          simp
        simp [hne, headIsLbrace, hp]
      | true =>
        simp only [Bool.cond_true]
        have hs1 : List.dropWhile isJsWs
            ((fenceOpen ++ w1) ++ ('{' :: itail) ++ (w2 ++ fenceShut))
            = (fenceOpen ++ w1) ++ ('{' :: itail) ++ (w2 ++ fenceShut) := by
          rw [List.append_assoc, List.append_assoc]
          exact dropWhile_eq_self_append _ (by decide) (by decide)
        have hrevEq : ((fenceOpen ++ w1) ++ ('{' :: itail)
              ++ (w2 ++ fenceShut)).reverse
            = fenceShut ++ (w2.reverse ++ (('{' :: itail).reverse
              ++ (w1.reverse ++ fenceOpen.reverse))) := by
          rw [List.reverse_append, List.reverse_append, List.reverse_append,
            List.reverse_append, hshutr]
          simp [List.append_assoc]
        have hs2 : List.dropWhile isJsWs
            ((fenceOpen ++ w1) ++ ('{' :: itail) ++ (w2 ++ fenceShut)).reverse
            = ((fenceOpen ++ w1) ++ ('{' :: itail)
              ++ (w2 ++ fenceShut)).reverse := by
          rw [hrevEq]
          exact dropWhile_eq_self_append _ (by decide) (by decide)
        have htrimR : trimChars ((fenceOpen ++ w1) ++ ('{' :: itail)
              ++ (w2 ++ fenceShut))
            = (fenceOpen ++ w1) ++ ('{' :: itail) ++ (w2 ++ fenceShut) :=
          trimChars_of hs1 hs2
        have hopenR : stripOpenFence ((fenceOpen ++ w1) ++ ('{' :: itail)
              ++ (w2 ++ fenceShut))
            = ('{' :: itail) ++ (w2 ++ fenceShut) := by
          rw [stripOpenFence, List.append_assoc, List.append_assoc,
            dropLead_self]
          show List.dropWhile isJsWs
              (w1 ++ ('{' :: itail ++ (w2 ++ fenceShut)))
            = '{' :: itail ++ (w2 ++ fenceShut)
          rw [dropWhile_ws_append _ hw1]
          exact dropWhile_eq_self_append _ (by simp) hdw
        have hrevEq2 : (('{' :: itail) ++ (w2 ++ fenceShut)).reverse
            = fenceShut ++ (w2.reverse ++ ('{' :: itail).reverse) := by
          rw [List.reverse_append, List.reverse_append, hshutr,
            List.append_assoc]
        have hcloseR : stripCloseFence (('{' :: itail) ++ (w2 ++ fenceShut))
            = '{' :: itail := by
          rw [stripCloseFence, hrevEq2, dropLead_self]
          show (List.dropWhile isJsWs
            (w2.reverse ++ ('{' :: itail).reverse)).reverse = '{' :: itail
          rw [dropWhile_ws_append _ hw2r, hrev0, List.reverse_reverse]
        rw [processCandidate]
        simp only [htrimR, hopenR, hcloseR]
        have hne : ((fenceOpen ++ w1) ++ ('{' :: itail)
            ++ (w2 ++ fenceShut)).isEmpty = false := by simp
        simp [hne, headIsLbrace, hp]

/-- Witness for C9: the line made of the opening fence tagged json, a
space, the object with key a, a space and the closing fence comes out as
exactly the bare object plus newline. -/
theorem claim_C9_witness :
    processCandidate jsonParses initState
        (cond true (fenceOpen ++ [' ']) []
          ++ ['{', '"', 'a', '"', ':', '1', '}']
          ++ cond true ([' '] ++ fenceShut) [])
      = { initState with
          emitted := [['{', '"', 'a', '"', ':', '1', '}'] ++ ['\n']],
          cardCount := 1 }
    ∧ backquoteChar ∉ ['{', '"', 'a', '"', ':', '1', '}'] ++ ['\n'] :=
  claim_C9_fenced_block jsonParses initState true true [' '] [' ']
    ['{', '"', 'a', '"', ':', '1', '}']
    (by decide) (by decide) (by decide) (by decide) (by decide) (by decide)
    (by decide)
